import Mathlib

/-!
Verification of the word-acceptance engine of a source-code spell checker.

The Go source is shallowly embedded: Go strings are modelled as `List Char`
(`Str`), byte/rune classification is done on `Char.toNat` codes, fallible
operations return `Except`, and the dictionary's `noteMisspelling` side
channel is modelled by explicit result accumulation.  External collaborators
(the hunspell oracle, the camel-case splitter, Unicode tables, float
parsing) are either parameters of the model or concrete ASCII-faithful
instances, as noted at each definition.
-/

/-- Go strings are modelled as lists of characters.  All position arithmetic
is in character units; for the ASCII inputs used in concrete statements this
coincides with Go's byte offsets. -/
abbrev Str := List Char

/-! ## Diff scope filter (`changeFilter`, `additions`) -/

/-- `lineRange` is a range of lines in a file, `[start, stop]` inclusive
(the Go struct's fields are `start` and `end`; `end` is a Lean keyword so
the upper bound is called `stop` here). -/
structure lineRange where
  start : Int
  stop : Int
deriving DecidableEq, Repr

/-- Association-list model of the Go map `map[string][]lineRange`.
Lookup returns the first matching entry. -/
def alookup : List (Str × List lineRange) → Str → Option (List lineRange)
  | [], _ => none
  | (k, v) :: m, key => if k == key then some v else alookup m key

/-- `additions[path] = append(additions[path], r)` on the association-list
map model: extend the entry for `key` in place, or add a new entry. -/
def mapAppend : List (Str × List lineRange) → Str → lineRange → List (Str × List lineRange)
  | [], key, r => [(key, [r])]
  | (k, v) :: m, key, r =>
    if k == key then (k, v ++ [r]) :: m else (k, v) :: mapAppend m key r

/-- A `changeFilter` as queried by `isInChange`: `none` models the Go `nil`
map, `some m` a (possibly empty) non-nil map. -/
abbrev changeFilter := Option (List (Str × List lineRange))

/-- Model of `changeFilter.isInChange`.  The Go method resolves a
`token.Pos` to a file name and line through the external `positioner` and
`rel`; the model takes the resolved `file` and `line` directly. -/
def isInChange (f : changeFilter) (file : Str) (line : Int) : Bool :=
  match f with
  | none => true
  | some m =>
    match alookup m file with
    | none => false
    | some lines => lines.any fun r => r.start ≤ line && line ≤ r.stop

/-- Model of `changeFilter.fileIsInChange`. -/
def fileIsInChange (f : changeFilter) (file : Str) : Bool :=
  match f with
  | none => true
  | some m => (alookup m file).isSome

/-- First index of `sep` in `s`: `strings.Index` / `bytes.IndexByte` for a
single character. -/
def idxOf? : Str → Char → Option Nat
  | [], _ => none
  | c :: rest, t => if c == t then some 0 else (idxOf? rest t).map (· + 1)

/-- `bytes.SplitN(s, []byte{sep}, n)` for `n > 0`: split around each
occurrence of `sep` into at most `n` pieces, the last piece holding the
unsplit remainder. -/
def splitN (s : Str) (sep : Char) (n : Nat) : List Str :=
  match n with
  | 0 => []
  | 1 => [s]
  | n + 2 =>
    match idxOf? s sep with
    | none => [s]
    | some i => s.take i :: splitN (s.drop (i + 1)) sep (n + 1)

/-- Decimal digit run value: `none` unless `s` is non-empty and all decimal
digits. -/
def decDigits? (s : Str) : Option Nat :=
  if s ≠ [] ∧ s.all fun c => 48 ≤ c.toNat ∧ c.toNat ≤ 57 then
    some (s.foldl (fun acc c => acc * 10 + (c.toNat - 48)) 0)
  else none

/-- Model of `strconv.Atoi`: optional sign followed by at least one decimal
digit.  (Go's `int` range errors are not modelled; the diff inputs of
interest are far from the boundary.) -/
def atoi (s : Str) : Except Unit Int :=
  match s with
  | [] => .error ()
  | c :: rest =>
    if c == '+' then
      match decDigits? rest with
      | some n => .ok (n : Int)
      | none => .error ()
    else if c == '-' then
      match decDigits? rest with
      | some n => .ok (-(n : Int))
      | none => .error ()
    else
      match decDigits? s with
      | some n => .ok (n : Int)
      | none => .error ()

/-- Failure modes of `additions`.  `indexOutOfRange` models the Go runtime
panic raised by the unguarded `f[2]` index; the other two are the returned
`fmt.Errorf` parse errors. -/
inductive diffErr where
  | indexOutOfRange
  | malformedDiffLine
  | parseRangeEnd
  | parseRangeStart
deriving DecidableEq, Repr

/-- The body of the hunk-header case of `additions` (checker source lines
1023–1044), acting on the added-side token `f[2]` (`none` when the split
line has fewer than three fields, in which case the Go code panics).
Returns `some r` for a recorded range, `none` for a skipped pure-deletion
hunk. -/
def hunkAddedRange (tok? : Option Str) : Except diffErr (Option lineRange) :=
  match tok? with
  | none => .error .indexOutOfRange
  | some tok =>
    if !(['+'].isPrefixOf tok) then .error .malformedDiffLine
    else if [',', '0'].reverse.isPrefixOf tok.reverse then .ok none
    else
      let hunk := tok.drop 1
      match idxOf? hunk ',' with
      | some idx =>
        match atoi (hunk.drop (idx + 1)) with
        | .error _ => .error .parseRangeEnd
        | .ok lines =>
          match atoi (hunk.take idx) with
          | .error _ => .error .parseRangeStart
          | .ok line => .ok (some ⟨line, line + (lines - 1)⟩)
      | none =>
        match atoi hunk with
        | .error _ => .error .parseRangeStart
        | .ok line => .ok (some ⟨line, line⟩)

/-- State of the `additions` scan loop: the current `+++ b/` path and the
accumulated map. -/
structure diffScanState where
  path : Str
  adds : List (Str × List lineRange)
deriving Repr

/-- One iteration of the `additions` line loop. -/
def additionsLine (st : diffScanState) (line : Str) : Except diffErr diffScanState :=
  if ("+++ b/".data).isPrefixOf line then
    .ok { st with path := line.drop 6 }
  else if ("@@ ".data).isPrefixOf line then
    match hunkAddedRange ((splitN line ' ' 4).get? 2) with
    | .error e => .error e
    | .ok none => .ok st
    | .ok (some r) => .ok { st with adds := mapAppend st.adds st.path r }
  else
    .ok st

/-- Model of `additions`: the input reader is modelled as its sequence of
lines (the `bufio.Scanner` line splitting is external). -/
def additions (input : List Str) : Except diffErr (List (Str × List lineRange)) :=
  go ⟨[], []⟩ input
where
  go (st : diffScanState) : List Str → Except diffErr (List (Str × List lineRange))
    | [] => .ok st.adds
    | l :: ls =>
      match additionsLine st l with
      | .error e => .error e
      | .ok st' => go st' ls

/-! ## Heuristics (`heuristics.go`) -/

/-- `isHex` from the source: every byte, lower-cased by `b |= 'a'-'A'`, is a
hex digit.  Byte comparisons are done on character codes. -/
def isHex (s : Str) : Bool :=
  s.all fun c =>
    let b := c.toNat ||| 32
    !(decide ((b < 48 ∨ 57 < b) ∧ (b < 97 ∨ 102 < b)))

/-- `isHexRune.isAcceptable`: whether `word` is accepted by the rune-literal
escape heuristic.  Mirrors the source's length guards, the switch on
`word[1]` and the octal loop over `word[1:]` (the `none` case of `get? 1`
is unreachable because the length is at least 4). -/
def isHexRuneAcceptable (word : Str) : Bool :=
  if word.length < 4 || !(word.headD (Char.ofNat 0) == '\\') then false
  else
    match word.get? 1 with
    | some 'x' => word.length == 4 && isHex ((word.drop 2).take 2)
    | some 'u' => word.length == 6 && isHex ((word.drop 2).take 4)
    | some 'U' => word.length == 10 && isHex ((word.drop 2).take 8)
    | _ =>
      if word.length == 4 then false
      else (word.drop 1).all fun c => !(decide (c.toNat < 48 ∨ 55 < c.toNat))

/-- An octal digit `'0'..'7'`. -/
def isOctalChar (c : Char) : Bool := decide (48 ≤ c.toNat ∧ c.toNat ≤ 55)

/-- Shape-level characterisation of the rune-literal escape heuristic, for
comparison with `isHexRuneAcceptable`: a backslash then `x`/`u`/`U` with
exactly 2/4/8 hex digits, or a backslash followed by at least four octal
digits. -/
def isHexRuneSpec (word : Str) : Bool :=
  match word with
  | '\\' :: 'x' :: rest => rest.length == 2 && isHex rest
  | '\\' :: 'u' :: rest => rest.length == 4 && isHex rest
  | '\\' :: 'U' :: rest => rest.length == 8 && isHex rest
  | '\\' :: rest => decide (4 ≤ rest.length) && rest.all isOctalChar
  | _ => false

/-- `wordLen.isAcceptable`: accept when a positive cap is exceeded. -/
def wordLenH (maxLen : Int) : Str → Bool → Bool := fun word _ =>
  decide (0 < maxLen) && decide (maxLen < word.length)

/-- `isNakedHex.isAcceptable`. -/
def isNakedHexH (minLen : Int) : Str → Bool → Bool := fun word _ =>
  decide (minLen ≠ 0) && decide (minLen ≤ word.length) && isHex word

/-- `strings.HasSuffix`. -/
def hasSuffixL (s pat : Str) : Bool := pat.reverse.isPrefixOf s.reverse

/-- `strings.TrimSuffix`. -/
def trimSuffixL (s pat : Str) : Str :=
  if hasSuffixL s pat then s.take (s.length - pat.length) else s

/-- The `knownUnits` table from the source. -/
def knownUnits : List Str :=
  ["k".data, "M".data, "x".data,
   "Kb".data, "kb".data, "Mb".data, "Gb".data, "Tb".data,
   "KB".data, "kB".data, "MB".data, "GB".data, "TB".data,
   "Kib".data, "kib".data, "Mib".data, "Gib".data, "Tib".data,
   "KiB".data, "kiB".data, "MiB".data, "GiB".data, "TiB".data,
   "Å".data, "nm".data, "µm".data, "mm".data, "cm".data, "m".data, "km".data,
   "ns".data, "µs".data, "us".data, "ms".data, "s".data, "min".data, "hr".data,
   "Hz".data]

/-- A decimal digit `'0'..'9'`. -/
def isDigitCh (c : Char) : Bool := decide (48 ≤ c.toNat ∧ c.toNat ≤ 57)

/-- First index satisfying a predicate. -/
def idxOfAny? : Str → (Char → Bool) → Option Nat
  | [], _ => none
  | c :: rest, p => if p c then some 0 else (idxOfAny? rest p).map (· + 1)

/-- Mantissa of a decimal float: digits with at most one dot and at least
one digit overall. -/
def mantOk (m : Str) : Bool :=
  match idxOf? m '.' with
  | none => !m.isEmpty && m.all isDigitCh
  | some i =>
    let ip := m.take i
    let fp := m.drop (i + 1)
    ip.all isDigitCh && fp.all isDigitCh && !(ip.isEmpty && fp.isEmpty)

/-- Modelled from the spec: success of the external `strconv.ParseFloat` on
a "valid floating-point numeral" (decimal forms with optional sign and
exponent; hex floats, `inf` and `NaN` are omitted — no claim depends on
them). -/
def goFloatOk (s : Str) : Bool :=
  let body : Str :=
    match s with
    | c :: rest => if c == '+' || c == '-' then rest else s
    | [] => []
  if body.isEmpty then false
  else
    match idxOfAny? body fun c => c == 'e' || c == 'E' with
    | none => mantOk body
    | some i =>
      let ex := body.drop (i + 1)
      let exBody : Str :=
        match ex with
        | c :: rest => if c == '+' || c == '-' then rest else ex
        | [] => []
      mantOk (body.take i) && !exBody.isEmpty && exBody.all isDigitCh

/-- `isUnit.isAcceptable`, parameterised by the external float parser:
reject partials, otherwise accept a known unit suffix preceded by a valid
float. -/
def isUnitH (parseFloatOk : Str → Bool) : Str → Bool → Bool := fun word part =>
  if part then false
  else knownUnits.any fun u => hasSuffixL word u && parseFloatOk (trimSuffixL word u)

/-- The unconditional heuristic chain installed by `newChecker`:
`wordLen`, `isNakedHex`, `isHexRune`, `isUnit`, in evaluation order. -/
def defaultHeuristics (maxWordLen minNakedHex : Int) (pf : Str → Bool) :
    List (Str → Bool → Bool) :=
  [wordLenH maxWordLen, isNakedHexH minNakedHex,
   fun w _ => isHexRuneAcceptable w, isUnitH pf]

/-! ## Decomposition checker (`checker.go`) -/

/-- The dictionary oracle's read interface (`hunspell`): `IsCorrect` and
`Suggest`.  Its `noteMisspelling` side channel is modelled by the `noted`
component of `CheckResult`. -/
structure Dict where
  IsCorrect : Str → Bool
  Suggest : Str → List Str

/-- ASCII restriction of the external `strings.EqualFold` (simple Unicode
case folding; only ASCII folds are exercised by the concrete statements). -/
def toLowerAscii (c : Char) : Char :=
  if 65 ≤ c.toNat ∧ c.toNat ≤ 90 then Char.ofNat (c.toNat + 32) else c

/-- Case-folded string equality. -/
def eqFold (a b : Str) : Bool := a.map toLowerAscii == b.map toLowerAscii

/-- The checker state consulted by `isCorrect`: the heuristic chain, the
dictionary oracle, the `CamelSplit` configuration flag, and the external
camel-case splitter (`github.com/kortschak/camel`). -/
structure Checker where
  heuristics : List (Str → Bool → Bool)
  dictionary : Dict
  CamelSplit : Bool
  camel : Str → List Str

/-- `checker.caseFoldMatch`: some suggestion equals the word under case
folding. -/
def caseFoldMatch (c : Checker) (word : Str) : Bool :=
  (c.dictionary.Suggest word).any fun s => eqFold s word

/-- `strings.Split(word, "_")`. -/
def splitUnderscore : Str → List Str
  | [] => [[]]
  | c :: rest =>
    if c == '_' then [] :: splitUnderscore rest
    else
      match splitUnderscore rest with
      | s :: ss => (c :: s) :: ss
      | [] => [[c]]

/-- The fragment list `isCorrect` recurses over: camel split when enabled,
else underscore split. -/
def fragmentsOf (c : Checker) (word : Str) : List Str :=
  if c.CamelSplit then c.camel word else splitUnderscore word

/-- Result of a (modelled) `isCorrect` call: the boolean verdict, the words
passed to the oracle's `noteMisspelling` side channel in call order, and
the words that were decomposed into fragments (recorded to reason about
recursion depth). -/
structure CheckResult where
  ok : Bool
  noted : List Str
  splits : List Str
deriving DecidableEq, Repr

/-- The fragment loop of `isCorrect`: check each fragment in order with the
given checker function, stopping at the first rejection (later fragments
are not evaluated, so their side effects do not occur). -/
def checkAllWith (check : Str → CheckResult) : List Str → CheckResult
  | [] => ⟨true, [], []⟩
  | f :: fs =>
    let r := check f
    if r.ok then
      let rest := checkAllWith check fs
      ⟨rest.ok, r.noted ++ rest.noted, r.splits ++ rest.splits⟩
    else ⟨false, r.noted, r.splits⟩

/-- `checker.isCorrect`, with explicit fuel standing for the call stack.
Fuel is never exhausted from `isCorrect` (fuel 2): fragments are checked
with `partial = true`, which returns before the split branch — the
fuel-independence conjunct of the C3 theorem makes this precise. -/
def isCorrectF (c : Checker) : Nat → Str → Bool → CheckResult
  | 0, _, _ => ⟨false, [], []⟩
  | fuel + 1, word, part =>
    if c.heuristics.any fun h => h word part then ⟨true, [], []⟩
    else if c.dictionary.IsCorrect word then ⟨true, [], []⟩
    else if part || caseFoldMatch c word then ⟨false, [word], []⟩
    else
      let r := checkAllWith (fun frag => isCorrectF c fuel frag true) (fragmentsOf c word)
      ⟨r.ok, r.noted, word :: r.splits⟩

/-- `checker.isCorrect` at its entry points. -/
def isCorrect (c : Checker) (word : Str) (part : Bool) : CheckResult :=
  isCorrectF c 2 word part

/-! ## Entropy filter (`entropy` in `checker.go`) -/

/-- `unicode.IsPrint(rune(b))` for a single byte `b`: the printable ASCII
range, and the printable Latin-1 range `0xA1..0xFF` minus the soft hyphen
`0xAD` (`0xA0`, no-break space, is not printable by Go's definition). -/
def isPrintByte (b : Fin 256) : Bool :=
  decide ((32 ≤ b.val ∧ b.val ≤ 126) ∨ (161 ≤ b.val ∧ b.val ≠ 173))

/-- The `counts` array of `entropy` after the counting loop: occurrences of
byte `b` in `text`, skipping non-printable bytes when `pr` is set. -/
def byteCount (text : List (Fin 256)) (pr : Bool) (b : Fin 256) : Nat :=
  (text.filter fun x => !(pr && !isPrintByte x)).count b

/-- `entropy(text, print)` from the source, on the byte sequence of the
text: probabilities are counts over the full text length, zero counts are
skipped, and an exactly-zero accumulator is returned un-negated. -/
noncomputable def entropy (text : List (Fin 256)) (pr : Bool) : ℝ :=
  if text = [] then 0
  else
    let n : ℝ := text.length
    let e : ℝ := ∑ b : Fin 256,
      if byteCount text pr b = 0 then 0
      else (byteCount text pr b : ℝ) / n * Real.logb 2 ((byteCount text pr b : ℝ) / n)
    if e = 0 then 0 else -e

/-- The entropy formula asserted by the claim for the `print` case: all
non-printable bytes are collapsed into one merged class whose count is the
total number of non-printable bytes, probabilities over the full length. -/
noncomputable def entropyCollapsedSpec (text : List (Fin 256)) : ℝ :=
  let n : ℝ := text.length
  let m : Nat := (text.filter fun b => !isPrintByte b).length;
  -((∑ b : Fin 256,
      if isPrintByte b then
        if text.count b = 0 then 0
        else (text.count b : ℝ) / n * Real.logb 2 ((text.count b : ℝ) / n)
      else 0)
    + (if m = 0 then 0 else (m : ℝ) / n * Real.logb 2 ((m : ℝ) / n)))

/-- What `entropy(text, true)` actually computes: the sum over printable
byte classes only, each with probability count over the full text length
(non-printable bytes are dropped from the counts, not merged). -/
noncomputable def entropyPrintOnlySpec (text : List (Fin 256)) : ℝ :=
  let n : ℝ := text.length;
  -(∑ b : Fin 256,
      if isPrintByte b then
        if text.count b = 0 then 0
        else (text.count b : ℝ) / n * Real.logb 2 ((text.count b : ℝ) / n)
      else 0)

/-! ## Tokenizer (`scanner.go`) -/

/-- The Unicode classifier oracle used by the scanner (the external
`unicode` package).  The round-trip theorem holds for every classifier;
`asciiUni` below is the concrete ASCII-faithful instance used in concrete
statements. -/
structure Uni where
  isSpace : Char → Bool
  isSymbol : Char → Bool
  isPunct : Char → Bool
  isLetter : Char → Bool
  isDigit : Char → Bool

/-- `utf8.RuneError`. -/
def runeError : Char := Char.ofNat 0xFFFD

/-- First rune of a byte run, `RuneError` when empty — the result of
`utf8.DecodeRune` on the character-level model. -/
def decodeHead (data : Str) : Char := data.headD runeError

/-- `isApostrophe`: a `'` flanked by letters. -/
def isApostrophe (uni : Uni) (last curr : Char) (data : Str) : Bool :=
  if curr != '\'' then false
  else uni.isLetter last && uni.isLetter (decodeHead data)

/-- `isExponentSign`: a `-` preceded by `e`/`E` (lower-cased by
`last |= 'a'-'A'`) and followed by a digit. -/
def isExponentSign (uni : Uni) (last curr : Char) (data : Str) : Bool :=
  if curr != '-' then false
  else Char.ofNat (last.toNat ||| 32) == 'e' && uni.isDigit (decodeHead data)

/-- `isWordSplitPunct`. -/
def isWordSplitPunct (uni : Uni) (prev curr : Char) (next : Str) : Bool :=
  curr != '_' && curr != '\\' && uni.isPunct curr &&
    !isApostrophe uni prev curr next && !isExponentSign uni prev curr next

/-- `isSplitter` from the source, returning the extra width to consume and
whether `curr` splits words.  In the character-level model every rune has
width 1, so the source's `r2, _ := utf8.DecodeRune(next[width:])` with
`width` the width of `r1 = DecodeRune(next[1:])` decodes the same character
as `r1`, and the `RuneError` guards collapse into the `get? 1` check. -/
def isSplitter (uni : Uni) (dq : Bool) (prev curr : Char) (next : Str) : Nat × Bool :=
  if uni.isSpace curr || uni.isSymbol curr || isWordSplitPunct uni prev curr next then
    (0, true)
  else if curr != '\\' || next.isEmpty then (0, false)
  else
    match next.get? 1 with
    | none => (0, false)
    | some r1 =>
      if uni.isSpace r1 || uni.isPunct r1 || uni.isSymbol r1 then (1, true)
      else
        match next with
        | [] => (0, false)
        | c :: _ =>
          if c == 'a' || c == 'b' || c == 'f' || c == 'n' || c == 'r' || c == 't' ||
             c == 'v' || c == '\\' || c == '\'' || c == '"' then
            (1, !dq)
          else if c == 'x' then
            if next.length < 2 then (0, false)
            else if !isHex (next.take 2) then (1, false)
            else (3, !dq)
          else if c == 'u' then
            if next.length < 4 then (0, false)
            else if !isHex (next.take 4) then (1, false)
            else (5, !dq)
          else if c == 'U' then
            if next.length < 8 then (0, false)
            else if !isHex (next.take 8) then (1, false)
            else (9, !dq)
          else
            if next.length < 3 then (0, false)
            else if next.all isOctalChar then (3, !dq)
            else (0, false)

/-- The scanner state: the `[pos, stop)` span of the token just produced
(the Go fields are `pos` and `end`) and the `doubleQuoted` flag. -/
structure Words where
  pos : Nat
  stop : Nat
  doubleQuoted : Bool
deriving DecidableEq, Repr

/-- The leading-splitter loop of `ScanWords`: starting at index `start`
with predecessor `prev`, advance over splitters and return the start of the
word together with the final predecessor.  The fuel argument only bounds
the iteration count; called with `data.length` it never runs out because
every step advances `start` by at least one. -/
def loop1 (uni : Uni) (dq : Bool) (data : Str) : Nat → Char → Nat → Nat × Char
  | 0, prev, start => (start, prev)
  | k + 1, prev, start =>
    match data.get? start with
    | none => (start, prev)
    | some r =>
      let (wid, ok) := isSplitter uni dq prev r (data.drop (start + 1))
      if ok then loop1 uni dq data k r (start + 1 + wid) else (start, r)

/-- The token-scanning loop of `ScanWords`: from index `i`, find the first
splitter; `some (i, width)` means a splitter of total width `width` was
found at index `i`, `none` means none was found before the end of data. -/
def loop2 (uni : Uni) (dq : Bool) (data : Str) : Nat → Char → Nat → Option (Nat × Nat)
  | 0, _, _ => none
  | k + 1, prev, i =>
    match data.get? i with
    | none => none
    | some r =>
      let (wid, ok) := isSplitter uni dq prev r (data.drop (i + 1))
      if ok then some (i, 1 + wid)
      else loop2 uni dq data k r (i + 1 + wid)

/-- `words.ScanWords(data, atEOF)`: returns `(advance, token, new state)`.
The produced token is `data[start:i]`; the recorded span `[pos, stop)`
additionally covers the splitter run that terminated the token. -/
def scanWords (uni : Uni) (w : Words) (data : Str) (atEOF : Bool) :
    Nat × Option Str × Words :=
  let pos0 := w.stop
  let (start, prev) := loop1 uni w.doubleQuoted data data.length (Char.ofNat 0) 0
  let pos := pos0 + start
  match loop2 uni w.doubleQuoted data data.length prev start with
  | some (i, width) =>
    (i + width, some ((data.drop start).take (i - start)),
     { w with pos := pos, stop := pos0 + i + width })
  | none =>
    if atEOF && decide (start < data.length) then
      (data.length, some (data.drop start), { w with pos := pos, stop := pos0 + data.length })
    else
      (start, none, { w with pos := pos, stop := pos })

/-- The `bufio.Scanner` drive loop over a fully materialised fragment:
repeatedly call `ScanWords` with `atEOF = true`, collecting each token with
its recorded `[pos, stop)` span, until no token is produced.  Fuel bounds
the number of tokens; `text.length + 1` always suffices since every token
consumes at least one character. -/
def scanTokens (uni : Uni) : Nat → Words → Str → List (Str × Nat × Nat)
  | 0, _, _ => []
  | fuel + 1, w, data =>
    match scanWords uni w data true with
    | (adv, some tok, w') => (tok, w'.pos, w'.stop) :: scanTokens uni fuel w' (data.drop adv)
    | (_, none, _) => []

/-- Scan a whole fragment from a fresh scanner state. -/
def runScanner (uni : Uni) (dq : Bool) (text : Str) : List (Str × Nat × Nat) :=
  scanTokens uni (text.length + 1) ⟨0, 0, dq⟩ text

/-- The substring `text[a:b]`. -/
def seg (text : Str) (a b : Nat) : Str := (text.drop a).take (b - a)

/-- Reconstruction from recorded spans: inter-span gaps, span contents, and
the trailing remainder, in order. -/
def reconSpans (text : Str) : Nat → List (Str × Nat × Nat) → Str
  | cur, [] => text.drop cur
  | cur, (_, p, e) :: rest => seg text cur p ++ seg text p e ++ reconSpans text e rest

/-- Reconstruction as asserted by the claim: inter-span gaps and the tokens
themselves (not the span contents), plus the trailing remainder. -/
def reconTokens (text : Str) : Nat → List (Str × Nat × Nat) → Str
  | cur, [] => text.drop cur
  | cur, (tok, p, e) :: rest => seg text cur p ++ tok ++ reconTokens text e rest

/-- The ASCII-faithful instance of the Unicode classifier oracle. -/
def asciiUni : Uni where
  isSpace c := c == ' ' || c == '\t' || c == '\n' || c.toNat == 11 || c.toNat == 12 || c == '\r'
  isSymbol c := c == '$' || c == '+' || c == '<' || c == '=' || c == '>' ||
    c == '^' || c.toNat == 96 || c == '|' || c == '~'
  isPunct c := ("!\"#%&'()*,-./:;?@[\\]_".data).contains c || c.toNat == 123 || c.toNat == 125
  isLetter c := decide ((65 ≤ c.toNat ∧ c.toNat ≤ 90) ∨ (97 ≤ c.toNat ∧ c.toNat ≤ 122))
  isDigit c := isDigitCh c

/-- Decidable equality for `Except`, used to evaluate closed statements
about `additions`. -/
instance {e a : Type} [DecidableEq e] [DecidableEq a] : DecidableEq (Except e a) := fun x y =>
  match x, y with
  | .error u, .error v =>
    if h : u = v then .isTrue (by rw [h]) else .isFalse (by intro hh; cases hh; exact h rfl)
  | .ok u, .ok v =>
    if h : u = v then .isTrue (by rw [h]) else .isFalse (by intro hh; cases hh; exact h rfl)
  | .error _, .ok _ => .isFalse (by intro hh; cases hh)
  | .ok _, .error _ => .isFalse (by intro hh; cases hh)

/-! ## Concrete instances used in closed statements -/

/-- A dictionary containing exactly `hello`, with no suggestions. -/
def dictC1 : Dict := ⟨fun w => w == "hello".data, fun _ => []⟩

/-- A checker over `dictC1` with the unconditional heuristic chain,
camel splitting disabled. -/
def chkC1 : Checker := ⟨defaultHeuristics 28 8 goFloatOk, dictC1, false, fun _ => []⟩

/-- A dictionary rejecting everything and suggesting `Word` for `word`. -/
def dictC2 : Dict :=
  ⟨fun _ => false, fun w => if w == "word".data then ["Word".data] else []⟩

/-- A checker over `dictC2`. -/
def chkC2 : Checker := ⟨defaultHeuristics 28 8 goFloatOk, dictC2, false, fun _ => []⟩

/-- A dictionary containing `foo` and `bar`, with no suggestions. -/
def dictD0 : Dict := ⟨fun w => w == "foo".data || w == "bar".data, fun _ => []⟩

/-- A dictionary whose word set extends `dictD0` with `FOO_BAR`, and whose
suggestion list for `foo_bar` offers the case-fold-equal `FOO_BAR`. -/
def dictD1 : Dict :=
  ⟨fun w => w == "foo".data || w == "bar".data || w == "FOO_BAR".data,
   fun w => if w == "foo_bar".data then ["FOO_BAR".data] else []⟩

/-- A dictionary extending `dictD0` with `baz`, suggestions unchanged. -/
def dictD2 : Dict :=
  ⟨fun w => w == "foo".data || w == "bar".data || w == "baz".data, fun _ => []⟩

/-- The checker used for the dictionary-monotonicity statements. -/
def chkC4 : Checker := ⟨defaultHeuristics 28 8 goFloatOk, dictD0, false, fun _ => []⟩

/-- A one-file, one-range change filter map. -/
def filtC6 : List (Str × List lineRange) := [("f.go".data, [⟨1, 3⟩])]

/-! ## Lemmas about the decomposition checker -/

/-- `checkAllWith` only depends on the checking function pointwise. -/
theorem checkAllWith_congr (f g : Str → CheckResult) (h : ∀ x, f x = g x) :
    ∀ l, checkAllWith f l = checkAllWith g l
  | [] => rfl
  | x :: xs => by
    simp only [checkAllWith, h x, checkAllWith_congr f g h xs]

/-- One-step unfolding of `isCorrectF` at positive fuel. -/
theorem isCorrectF_succ (c : Checker) (fuel : Nat) (w : Str) (p : Bool) :
    isCorrectF c (fuel + 1) w p =
      if c.heuristics.any fun h => h w p then ⟨true, [], []⟩
      else if c.dictionary.IsCorrect w then ⟨true, [], []⟩
      else if p || caseFoldMatch c w then ⟨false, [w], []⟩
      else
        ⟨(checkAllWith (fun frag => isCorrectF c fuel frag true) (fragmentsOf c w)).ok,
         (checkAllWith (fun frag => isCorrectF c fuel frag true) (fragmentsOf c w)).noted,
         w :: (checkAllWith (fun frag => isCorrectF c fuel frag true) (fragmentsOf c w)).splits⟩ :=
  rfl

/-- A `partial = true` call is insensitive to fuel: it returns before the
split branch. -/
theorem isCorrectF_partial_fuel (c : Checker) (n : Nat) (w : Str) :
    isCorrectF c (n + 1) w true = isCorrectF c 1 w true := by
  rw [isCorrectF_succ]
  rw [show (1 : Nat) = 0 + 1 from rfl, isCorrectF_succ]
  simp

/-- Any call is insensitive to fuel beyond 2: fragments are checked with
`partial = true` and never recurse further. -/
theorem isCorrectF_fuel (c : Checker) (n : Nat) (w : Str) (p : Bool) :
    isCorrectF c (n + 2) w p = isCorrectF c 2 w p := by
  cases p
  · rw [show n + 2 = (n + 1) + 1 from rfl, isCorrectF_succ]
    rw [show (2 : Nat) = 1 + 1 from rfl, isCorrectF_succ]
    rw [checkAllWith_congr _ _ (fun x => isCorrectF_partial_fuel c n x) (fragmentsOf c w)]
  · rw [show n + 2 = (n + 1) + 1 from rfl,
      isCorrectF_partial_fuel c (n + 1) w, show (2 : Nat) = 1 + 1 from rfl,
      isCorrectF_partial_fuel c 1 w]

/-- If every fragment check records no split, neither does the loop. -/
theorem checkAllWith_splits (f : Str → CheckResult) (h : ∀ x, (f x).splits = []) :
    ∀ l, (checkAllWith f l).splits = []
  | [] => rfl
  | x :: xs => by
    simp only [checkAllWith]
    split
    · simp [h x, checkAllWith_splits f h xs]
    · simp [h x]

/-- The fragment loop accepts exactly when every fragment is accepted. -/
theorem checkAllWith_ok_iff (f : Str → CheckResult) :
    ∀ l, (checkAllWith f l).ok = true ↔ ∀ x ∈ l, (f x).ok = true
  | [] => by simp [checkAllWith]
  | x :: xs => by
    simp only [checkAllWith]
    split
    · simp [*, checkAllWith_ok_iff f xs]
    · simp_all

/-- A fuel-1 `partial` call never records a split. -/
theorem isCorrectF_one_splits (c : Checker) (w : Str) :
    (isCorrectF c 1 w true).splits = [] := by
  rw [show (1 : Nat) = 0 + 1 from rfl, isCorrectF_succ]
  simp only [Bool.true_or, if_true]
  split
  · rfl
  · split <;> rfl

/-- Case-fold matching only depends on the suggestion oracle. -/
theorem caseFoldMatch_dict (c : Checker) (D : Dict) (w : Str)
    (h : c.dictionary.Suggest = D.Suggest) :
    caseFoldMatch { c with dictionary := D } w = caseFoldMatch c w := by
  simp [caseFoldMatch, h]

/-- Monotonicity of a fragment (`partial = true`) check in the dictionary
word set. -/
theorem isCorrectF_partial_mono (c : Checker) (D D' : Dict)
    (hsub : ∀ w, D.IsCorrect w = true → D'.IsCorrect w = true) (w : Str)
    (h : (isCorrectF { c with dictionary := D } 1 w true).ok = true) :
    (isCorrectF { c with dictionary := D' } 1 w true).ok = true := by
  rw [show (1 : Nat) = 0 + 1 from rfl, isCorrectF_succ] at h ⊢
  simp only [Bool.true_or, if_true] at h ⊢
  by_cases hA : (c.heuristics.any fun hh => hh w true) = true
  · simp [hA]
  · by_cases hD : D.IsCorrect w = true
    · simp [hA, hsub w hD]
    · simp [hA, hD] at h

/-- Record updates do not change the fragment list. -/
theorem fragmentsOf_dict (c : Checker) (D : Dict) (w : Str) :
    fragmentsOf { c with dictionary := D } w = fragmentsOf c w := rfl

/-- C1: for every word `w` with `IsCorrect(w) = true` in the dictionary
oracle, `checker.isCorrect(w, false)` returns true under every
configuration of heuristics: heuristics can only accept early, and
otherwise the dictionary branch accepts. -/
theorem C1_dictionary_word_accepted (c : Checker) (w : Str)
    (h : c.dictionary.IsCorrect w = true) :
    (isCorrect c w false).ok = true := by
  unfold isCorrect
  rw [show (2 : Nat) = 1 + 1 from rfl, isCorrectF_succ]
  by_cases hA : (c.heuristics.any fun hh => hh w false) = true
  · simp [hA]
  · simp [hA, h]

/-- C1 witness: the concrete checker `chkC1` accepts the dictionary word
`hello`. -/
theorem C1_witness :
    chkC1.dictionary.IsCorrect "hello".data = true ∧
    (isCorrect chkC1 "hello".data false).ok = true :=
  ⟨by decide, C1_dictionary_word_accepted chkC1 "hello".data (by decide)⟩

/-- C2: when no heuristic accepts, the dictionary rejects, and a case-fold
suggestion match exists, `isCorrect(w, false)` notes exactly `w` as
misspelled and returns false with no decomposition recorded. -/
theorem C2_case_fold_rejects_without_split (c : Checker) (w : Str)
    (h1 : (c.heuristics.any fun h => h w false) = false)
    (h2 : c.dictionary.IsCorrect w = false)
    (h3 : caseFoldMatch c w = true) :
    isCorrect c w false = ⟨false, [w], []⟩ := by
  unfold isCorrect
  rw [show (2 : Nat) = 1 + 1 from rfl, isCorrectF_succ]
  simp [h1, h2, h3]

/-- C2 witness: the concrete checker `chkC2` rejects `word` (suggested
`Word`) by case-fold match, noting it and not splitting. -/
theorem C2_witness :
    (chkC2.heuristics.any fun h => h "word".data false) = false ∧
    chkC2.dictionary.IsCorrect "word".data = false ∧
    caseFoldMatch chkC2 "word".data = true ∧
    isCorrect chkC2 "word".data false = ⟨false, ["word".data], []⟩ :=
  ⟨by decide, by decide, by decide,
   C2_case_fold_rejects_without_split chkC2 "word".data (by decide) (by decide) (by decide)⟩

/-- C3: `isCorrect` recursion is at most one split level deep: results are
independent of fuel beyond the two modelled call levels, a
`partial = true` call never decomposes its argument, and a top-level call
decomposes at most the word itself — fragments are never re-split. -/
theorem C3_recursion_depth_bounded :
    (∀ (c : Checker) (n : Nat) (w : Str) (p : Bool),
        isCorrectF c (n + 2) w p = isCorrect c w p) ∧
    (∀ (c : Checker) (n : Nat) (w : Str),
        (isCorrectF c (n + 1) w true).splits = []) ∧
    (∀ (c : Checker) (w : Str),
        (isCorrect c w false).splits = [] ∨ (isCorrect c w false).splits = [w]) := by
  refine ⟨fun c n w p => isCorrectF_fuel c n w p, fun c n w => ?_, fun c w => ?_⟩
  · rw [isCorrectF_partial_fuel]
    exact isCorrectF_one_splits c w
  · unfold isCorrect
    rw [show (2 : Nat) = 1 + 1 from rfl, isCorrectF_succ]
    split
    · exact Or.inl rfl
    · split
      · exact Or.inl rfl
      · split
        · exact Or.inl rfl
        · right
          simp [checkAllWith_splits _ (fun x => isCorrectF_one_splits c x)]

/-- C4 counterexample: `dictD1` contains every word of `dictD0`, yet
`foo_bar` — accepted under `dictD0` via underscore splitting — is rejected
under `dictD1`, because the added word `FOO_BAR` surfaces as a case-fold
suggestion match.  Acceptance is not monotonic in the word set alone. -/
theorem C4_counterexample :
    (∀ w : Str, dictD0.IsCorrect w = true → dictD1.IsCorrect w = true) ∧
    (isCorrect chkC4 "foo_bar".data false).ok = true ∧
    (isCorrect { chkC4 with dictionary := dictD1 } "foo_bar".data false).ok = false := by
  refine ⟨fun w h => ?_, by decide, by decide⟩
  simp [dictD0, dictD1] at h ⊢
  tauto

/-- C4 (amended): acceptance is monotonic in the pre-loaded dictionary
word set provided the suggestion oracle is unchanged by the additions: if
`D'` contains every word of `D` and suggests identically, every word
accepted under `D` is accepted under `D'`. -/
theorem C4_amended_monotonic (c : Checker) (D D' : Dict)
    (hsub : ∀ w, D.IsCorrect w = true → D'.IsCorrect w = true)
    (hsug : D.Suggest = D'.Suggest) (w : Str)
    (h : (isCorrect { c with dictionary := D } w false).ok = true) :
    (isCorrect { c with dictionary := D' } w false).ok = true := by
  unfold isCorrect at h ⊢
  rw [show (2 : Nat) = 1 + 1 from rfl, isCorrectF_succ] at h ⊢
  by_cases hA : (c.heuristics.any fun hh => hh w false) = true
  · simp [hA]
  · by_cases hD' : D'.IsCorrect w = true
    · simp [hA, hD']
    · have hD : D.IsCorrect w = false := by
        cases hDD : D.IsCorrect w
        · rfl
        · exact absurd (hsub w hDD) (by simp [hD'])
      have hcf : caseFoldMatch { c with dictionary := D' } w
          = caseFoldMatch { c with dictionary := D } w := by
        simp [caseFoldMatch, hsug]
      by_cases hC : caseFoldMatch { c with dictionary := D } w = true
      · simp [hA, hD, hC] at h
      · simp only [Bool.not_eq_true] at hC
        simp [hA, hD, hC, fragmentsOf_dict] at h
        simp [hA, hD', hcf, hC, fragmentsOf_dict]
        rw [checkAllWith_ok_iff] at h ⊢
        intro x hx
        exact isCorrectF_partial_mono c D D' hsub x (h x hx)

/-- C4 witness for the amended monotonicity: extending `dictD0` with `baz`
(suggestions unchanged) preserves acceptance of `foo_bar`. -/
theorem C4_witness :
    (isCorrect { chkC4 with dictionary := dictD2 } "foo_bar".data false).ok = true :=
  C4_amended_monotonic chkC4 dictD0 dictD2
    (fun w h => by simp [dictD0, dictD2] at h ⊢; tauto)
    rfl "foo_bar".data (by decide)
/-! ## Lemmas about the diff parser -/

/-- `atoi` succeeds on a pure digit run with its decimal value. -/
theorem atoi_of_decDigits {s : Str} {n : Nat} (h : decDigits? s = some n) :
    atoi s = .ok (n : Int) := by
  cases s with
  | nil => simp [decDigits?] at h
  | cons c rest =>
    have hcd : 48 ≤ c.toNat ∧ c.toNat ≤ 57 := by
      unfold decDigits? at h
      split at h
      · rename_i hcond
        have := hcond.2
        simp only [List.all_cons, Bool.and_eq_true, decide_eq_true_eq] at this
        exact this.1
      · exact absurd h (by simp)
    have hplus : ¬ (c == '+') = true := by
      simp only [beq_iff_eq]
      intro he
      subst he
      exact absurd hcd (by decide)
    have hminus : ¬ (c == '-') = true := by
      simp only [beq_iff_eq]
      intro he
      subst he
      exact absurd hcd (by decide)
    simp only [atoi, if_neg hplus, if_neg hminus, h]

/-- In a digit run followed by a comma, the first comma sits just past the
digits. -/
theorem idxOf?_digits_comma (s c : Str)
    (hs : (s.all fun ch => decide (48 ≤ ch.toNat ∧ ch.toNat ≤ 57)) = true) :
    idxOf? (s ++ ',' :: c) ',' = some s.length := by
  induction s with
  | nil => simp [idxOf?]
  | cons a as ih =>
    simp only [List.all_cons, Bool.and_eq_true, decide_eq_true_eq] at hs
    have ha : (a == ',') = false := by
      simp only [beq_eq_false_iff_ne, ne_eq]
      intro he
      subst he
      exact absurd hs.1 (by decide)
    simp [idxOf?, ha, ih hs.2]

/-- A pure digit run contains no comma. -/
theorem idxOf?_digits_none (s : Str)
    (hs : (s.all fun ch => decide (48 ≤ ch.toNat ∧ ch.toNat ≤ 57)) = true) :
    idxOf? s ',' = none := by
  induction s with
  | nil => rfl
  | cons a as ih =>
    simp only [List.all_cons, Bool.and_eq_true, decide_eq_true_eq] at hs
    have ha : (a == ',') = false := by
      simp only [beq_eq_false_iff_ne, ne_eq]
      intro he
      subst he
      exact absurd hs.1 (by decide)
    simp [idxOf?, ha, ih hs.2]

/-- A reversed digit run of length at least two cannot start with
`'0', ','`. -/
theorem no_comma_in_digit_tail (l rest : Str) (hl : 2 ≤ l.length)
    (hall : (l.all fun ch => decide (48 ≤ ch.toNat ∧ ch.toNat ≤ 57)) = true) :
    (['0', ','].isPrefixOf (l.reverse ++ rest)) = false := by
  rcases hr : l.reverse with _ | ⟨x, _ | ⟨y, zs⟩⟩
  · have : l = [] := by simpa using congrArg List.reverse hr
    subst this
    simp at hl
  · have : l.length = 1 := by
      have := congrArg List.length hr
      simpa using this
    omega
  · have hy : y ∈ l := by
      rw [← List.mem_reverse, hr]
      simp
    have hyd : 48 ≤ y.toNat ∧ y.toNat ≤ 57 := by
      simp only [List.all_eq_true, decide_eq_true_eq] at hall
      exact hall y hy
    have hcy : (',' == y) = false := by
      simp only [beq_eq_false_iff_ne, ne_eq]
      intro he
      rw [← he] at hyd
      exact absurd hyd (by decide)
    simp [List.isPrefixOf, hcy]

/-- The `,0` deletion suffix does not match a hunk token whose count field
is a digit run of value at least 1. -/
theorem no_deletion_suffix (s c : Str) {b : Nat}
    (hc : decDigits? c = some b) (hb : 1 ≤ b) :
    ([',', '0'].reverse.isPrefixOf ('+' :: (s ++ ',' :: c)).reverse) = false := by
  have hcd : c ≠ [] ∧ (c.all fun ch => decide (48 ≤ ch.toNat ∧ ch.toNat ≤ 57)) = true := by
    unfold decDigits? at hc
    split at hc
    · rename_i hcond
      exact ⟨hcond.1, by simpa using hcond.2⟩
    · exact absurd hc (by simp)
  have hrev : ('+' :: (s ++ ',' :: c)).reverse = c.reverse ++ (',' :: (s.reverse ++ ['+'])) := by
    simp
  rw [hrev]
  rcases c with _ | ⟨d, _ | ⟨e, cs⟩⟩
  · exact absurd rfl hcd.1
  · -- single digit d: its value is b, so b ≥ 1 forces d ≠ '0'
    have hdig : 48 ≤ d.toNat ∧ d.toNat ≤ 57 := by
      have h2 := hcd.2
      simp only [List.all_cons, List.all_nil, Bool.and_true, decide_eq_true_eq] at h2
      exact h2
    have hd : d.toNat - 48 = b := by
      have hv : decDigits? [d] = some (d.toNat - 48) := by
        unfold decDigits?
        rw [if_pos ⟨by simp, by simp [hdig]⟩]
        simp
      rw [hv, Option.some.injEq] at hc
      exact hc
    have : ('0' == d) = false := by
      simp only [beq_eq_false_iff_ne, ne_eq]
      intro he
      rw [← he] at hd
      simp at hd
      omega
    simp [List.isPrefixOf, this]
  · exact no_comma_in_digit_tail (d :: e :: cs) _ (by simp) hcd.2

/-- Digit-run facts extracted from a successful `decDigits?` parse. -/
theorem decDigits?_all {s : Str} {n : Nat} (h : decDigits? s = some n) :
    s ≠ [] ∧ (s.all fun ch => decide (48 ≤ ch.toNat ∧ ch.toNat ≤ 57)) = true := by
  unfold decDigits? at h
  split at h
  · rename_i hcond
    exact ⟨hcond.1, by simpa using hcond.2⟩
  · exact absurd h (by simp)

/-- A `+`-prefixed pure digit token has no `,0` suffix. -/
theorem no_deletion_suffix_nocomma (s : Str) (hne : s ≠ [])
    (hsall : (s.all fun ch => decide (48 ≤ ch.toNat ∧ ch.toNat ≤ 57)) = true) :
    ([',', '0'].reverse.isPrefixOf ('+' :: s).reverse) = false := by
  have hrev : ('+' :: s).reverse = s.reverse ++ ['+'] := by simp
  rw [hrev]
  rcases hr : s.reverse with _ | ⟨x, _ | ⟨y, zs⟩⟩
  · have : s = [] := by simpa using congrArg List.reverse hr
    exact absurd this hne
  · simp [List.isPrefixOf]
  · have hy : y ∈ s := by
      rw [← List.mem_reverse, hr]
      simp
    have hyd : 48 ≤ y.toNat ∧ y.toNat ≤ 57 := by
      simp only [List.all_eq_true, decide_eq_true_eq] at hsall
      exact hsall y hy
    have hcy : (',' == y) = false := by
      simp only [beq_eq_false_iff_ne, ne_eq]
      intro he
      rw [← he] at hyd
      exact absurd hyd (by decide)
    simp [List.isPrefixOf, hcy]

/-- One-step unfolding of `hunkAddedRange` on a present token. -/
theorem hunkAddedRange_some (tok : Str) :
    hunkAddedRange (some tok) =
      if (!(['+'].isPrefixOf tok)) = true then .error .malformedDiffLine
      else if ([',', '0'].reverse.isPrefixOf tok.reverse) = true then .ok none
      else
        match idxOf? (tok.drop 1) ',' with
        | some idx =>
          match atoi ((tok.drop 1).drop (idx + 1)) with
          | .error _ => .error .parseRangeEnd
          | .ok lines =>
            match atoi ((tok.drop 1).take idx) with
            | .error _ => .error .parseRangeStart
            | .ok line => .ok (some ⟨line, line + (lines - 1)⟩)
        | none =>
          match atoi (tok.drop 1) with
          | .error _ => .error .parseRangeStart
          | .ok line => .ok (some ⟨line, line⟩) := rfl

/-- C5: on well-formed hunk-header tokens the added-side range parse of
`additions` behaves as specified: `+start,count` with `count ≥ 1` yields
the inclusive range `[start, start + count - 1]`; `+start` with the count
omitted yields `[start, start]`; a token ending in `,0` yields no range;
and the diff `+++ b/main.go` / `@@ -3,5 +3,5 @@` yields exactly the range
`[3, 7]` for `main.go`. -/
theorem C5_hunk_ranges :
    (∀ (s c : Str) (a b : Nat), decDigits? s = some a → decDigits? c = some b → 1 ≤ b →
        hunkAddedRange (some ('+' :: (s ++ ',' :: c)))
          = .ok (some ⟨(a : Int), (a : Int) + (b : Int) - 1⟩)) ∧
    (∀ (s : Str) (a : Nat), decDigits? s = some a →
        hunkAddedRange (some ('+' :: s)) = .ok (some ⟨(a : Int), (a : Int)⟩)) ∧
    (∀ tok : Str, (['+'].isPrefixOf tok) = true →
        ([',', '0'].reverse.isPrefixOf tok.reverse) = true →
        hunkAddedRange (some tok) = .ok none) ∧
    additions ["+++ b/main.go".data, "@@ -3,5 +3,5 @@".data]
      = .ok [("main.go".data, [⟨3, 7⟩])] := by
  refine ⟨fun s c a b hs hc hb => ?_, fun s a hs => ?_, fun tok h1 h2 => ?_, by decide⟩
  · have hsall := (decDigits?_all hs).2
    have hnosuf := no_deletion_suffix s c hc hb
    have hd1 : ('+' :: (s ++ ',' :: c)).drop 1 = s ++ ',' :: c := rfl
    have hdrop : (s ++ ',' :: c).drop (s.length + 1) = c := by
      rw [show s ++ ',' :: c = (s ++ [',']) ++ c by simp]
      rw [List.drop_left' (by simp)]
    have htake : (s ++ ',' :: c).take s.length = s := List.take_left s _
    rw [hunkAddedRange_some]
    rw [if_neg (by simp [List.isPrefixOf])]
    rw [if_neg (by rw [hnosuf]; simp)]
    simp only [hd1, idxOf?_digits_comma s c hsall, hdrop, htake,
      atoi_of_decDigits hc, atoi_of_decDigits hs]
    simp only [Except.ok.injEq, Option.some.injEq, lineRange.mk.injEq]
    exact ⟨trivial, by ring⟩
  · have hall := decDigits?_all hs
    rw [hunkAddedRange_some]
    rw [if_neg (by simp [List.isPrefixOf])]
    rw [if_neg (by rw [no_deletion_suffix_nocomma s hall.1 hall.2]; simp)]
    have hd1 : ('+' :: s).drop 1 = s := rfl
    simp only [hd1, idxOf?_digits_none s hall.2, atoi_of_decDigits hs]
  · rw [hunkAddedRange_some]
    rw [if_neg (by simp [h1])]
    rw [if_pos h2]

/-- C5 witness: the three general conjuncts evaluated at `+3,5`, `+3` and
`+4,0`. -/
theorem C5_witness :
    hunkAddedRange (some ('+' :: ("3".data ++ ',' :: "5".data))) = .ok (some ⟨3, 7⟩) ∧
    hunkAddedRange (some ('+' :: "3".data)) = .ok (some ⟨3, 3⟩) ∧
    hunkAddedRange (some "+4,0".data) = .ok none := by
  refine ⟨?_, ?_, ?_⟩
  · have h := C5_hunk_ranges.1 "3".data "5".data 3 5 (by decide) (by decide) (by decide)
    rw [h]
    norm_num
  · exact C5_hunk_ranges.2.1 "3".data 3 (by decide)
  · exact C5_hunk_ranges.2.2.1 "+4,0".data (by decide) (by decide)

/-- C6 counterexample: an empty but non-nil change filter rejects every
position — `isInChange` returns false although the claim asserts that an
empty filter accepts everything. -/
theorem C6_counterexample : isInChange (some []) "a.go".data 1 = false := by decide

/-- C6 (amended): `isInChange` accepts every position when the filter is
nil; for a non-nil filter — including the empty one — it accepts exactly
the positions whose file has a recorded range list with some inclusive
range containing the line. -/
theorem C6_amended_isInChange :
    (∀ (file : Str) (line : Int), isInChange none file line = true) ∧
    (∀ (m : List (Str × List lineRange)) (file : Str) (line : Int),
        isInChange (some m) file line = true ↔
          ∃ rs, alookup m file = some rs ∧ ∃ r ∈ rs, r.start ≤ line ∧ line ≤ r.stop) := by
  refine ⟨fun _ _ => rfl, fun m file line => ?_⟩
  simp only [isInChange]
  cases h : alookup m file with
  | none => simp
  | some rs => simp [List.any_eq_true]

/-- C10: `additions` on a diff containing the hunk-header line `@@ -1,2`
(fewer than three space-separated fields) hits the unguarded `f[2]` index:
the model returns the index-out-of-range panic marker, not a parse
error. -/
theorem C10_short_hunk_header_panics :
    additions ["@@ -1,2".data] = .error .indexOutOfRange := by decide

/-! ## Lemmas for the rune-literal escape heuristic -/

/-- The source's octal-digit test agrees with `isOctalChar`. -/
theorem octalChar_eq (c : Char) :
    (!(decide (c.toNat < 48 ∨ 55 < c.toNat))) = isOctalChar c := by
  rw [Bool.eq_iff_iff]
  simp only [isOctalChar, Bool.not_eq_true', decide_eq_false_iff_not, decide_eq_true_eq]
  omega

/-- C8 counterexample: the three-octal-digit escape `\123` — a 4-character
token the claim says is accepted — is rejected by
`isHexRune.isAcceptable` (`len(word) == 4` forces false in the octal
branch). -/
theorem C8_counterexample : isHexRuneAcceptable "\\123".data = false := by decide

/-- C8 (amended): `isHexRune.isAcceptable` accepts exactly `\xHH`,
`\uHHHH`, `\UHHHHHHHH`, and a backslash followed by at least four octal
digits; in particular one- to three-octal-digit escapes such as `\123` are
rejected. -/
theorem C8_amended_exact (w : Str) : isHexRuneAcceptable w = isHexRuneSpec w := by
  rcases w with _ | ⟨c0, w1⟩
  · rfl
  rcases w1 with _ | ⟨c1, w2⟩
  · have hL : isHexRuneAcceptable [c0] = false := by simp [isHexRuneAcceptable]
    rw [hL]
    unfold isHexRuneSpec
    split <;> simp_all
  by_cases hc0 : c0 = '\\'
  case neg =>
    have hbeq : (c0 == '\\') = false := by simpa using hc0
    have hL : isHexRuneAcceptable (c0 :: c1 :: w2) = false := by
      unfold isHexRuneAcceptable
      simp [hbeq]
    rw [hL]
    unfold isHexRuneSpec
    split <;> simp_all
  case pos =>
    subst hc0
    by_cases hx : c1 = 'x'
    · subst hx
      show isHexRuneAcceptable ('\\' :: 'x' :: w2) = (w2.length == 2 && isHex w2)
      by_cases h2 : w2.length = 2
      · have htake : w2.take 2 = w2 := by rw [← h2]; exact List.take_length w2
        simp [isHexRuneAcceptable, h2, htake]
      · have hne : (w2.length == 2) = false := by simpa using h2
        by_cases hlt : w2.length + 2 < 4
        · simp [isHexRuneAcceptable, hlt, hne]
        · have h4 : ((w2.length + 2 : Nat) == 4) = false := by
            simp only [beq_eq_false_iff_ne, ne_eq]
            omega
          simp [isHexRuneAcceptable, hlt, h4, hne]
    by_cases hu : c1 = 'u'
    · subst hu
      show isHexRuneAcceptable ('\\' :: 'u' :: w2) = (w2.length == 4 && isHex w2)
      by_cases h2 : w2.length = 4
      · have htake : w2.take 4 = w2 := by rw [← h2]; exact List.take_length w2
        simp [isHexRuneAcceptable, h2, htake]
      · have hne : (w2.length == 4) = false := by simpa using h2
        by_cases hlt : w2.length + 2 < 4
        · simp [isHexRuneAcceptable, hlt, hne]
        · have h6 : ((w2.length + 2 : Nat) == 6) = false := by
            simp only [beq_eq_false_iff_ne, ne_eq]
            omega
          simp [isHexRuneAcceptable, hlt, h6, hne]
    by_cases hU : c1 = 'U'
    · subst hU
      show isHexRuneAcceptable ('\\' :: 'U' :: w2) = (w2.length == 8 && isHex w2)
      by_cases h2 : w2.length = 8
      · have htake : w2.take 8 = w2 := by rw [← h2]; exact List.take_length w2
        simp [isHexRuneAcceptable, h2, htake]
      · have hne : (w2.length == 8) = false := by simpa using h2
        by_cases hlt : w2.length + 2 < 4
        · simp [isHexRuneAcceptable, hlt, hne]
        · have h10 : ((w2.length + 2 : Nat) == 10) = false := by
            simp only [beq_eq_false_iff_ne, ne_eq]
            omega
          simp [isHexRuneAcceptable, hlt, h10, hne]
    -- remaining selector: the octal branch on both sides
    have hspec : isHexRuneSpec ('\\' :: c1 :: w2)
        = (decide (4 ≤ (c1 :: w2).length) && (c1 :: w2).all isOctalChar) := by
      unfold isHexRuneSpec
      split <;> simp_all
    rw [hspec]
    unfold isHexRuneAcceptable
    by_cases hlt : ('\\' :: c1 :: w2).length < 4
    · have hlen : (decide (4 ≤ (c1 :: w2).length)) = false := by
        simp only [List.length_cons] at hlt ⊢
        simp only [decide_eq_false_iff_not]
        omega
      have hc : w2.length + 1 + 1 < 4 := by simpa using hlt
      simp [hc, hlen]
      intro h3
      exact absurd h3 (by omega)
    · rw [if_neg (by simp_all)]
      split
      · rename_i heq
        exact absurd (by simpa using heq) hx
      · rename_i heq
        exact absurd (by simpa using heq) hu
      · rename_i heq
        exact absurd (by simpa using heq) hU
      · by_cases h4 : w2.length = 2
        · have hlen : (decide (4 ≤ (c1 :: w2).length)) = false := by
            simp only [List.length_cons, decide_eq_false_iff_not]
            omega
          simp [h4, hlen]
        · have hne4 : (('\\' :: c1 :: w2).length == 4) = false := by
            simp only [List.length_cons, beq_eq_false_iff_ne, ne_eq]
            omega
          have hlen : (decide (4 ≤ (c1 :: w2).length)) = true := by
            simp only [List.length_cons] at hlt ⊢
            simp only [decide_eq_true_eq]
            omega
          simp only [hne4, Bool.false_eq_true, if_false, hlen, Bool.true_and]
          show ((c1 :: w2).all fun c => !(decide (c.toNat < 48 ∨ 55 < c.toNat)))
              = (c1 :: w2).all isOctalChar
          simp only [octalChar_eq]

/-! ## Lemmas for the entropy filter -/

/-- With the print flag set, the byte counts are the counts of the
printable bytes and zero elsewhere. -/
theorem byteCount_true (t : List (Fin 256)) (b : Fin 256) :
    byteCount t true b = if isPrintByte b then t.count b else 0 := by
  unfold byteCount
  have hf : (fun x : Fin 256 => !(true && !isPrintByte x))
      = fun x : Fin 256 => isPrintByte x := by
    funext x
    simp
  rw [hf]
  by_cases hb : isPrintByte b = true
  · rw [if_pos hb, List.count_filter hb]
  · rw [if_neg hb]
    refine List.count_eq_zero.mpr fun hmem => ?_
    exact hb (List.of_mem_filter hmem)

/-- C9 (amended): with the print flag set, `entropy` computes the sum over
printable byte classes only, with probabilities over the full text length
— non-printable bytes are dropped from the counts, not collapsed into a
merged class. -/
theorem C9_amended_print_entropy (t : List (Fin 256)) :
    entropy t true = entropyPrintOnlySpec t := by
  by_cases ht : t = []
  · subst ht
    simp [entropy, entropyPrintOnlySpec]
  · simp only [entropy, entropyPrintOnlySpec, if_neg ht]
    have hterm : ∀ b : Fin 256,
        (if byteCount t true b = 0 then (0 : ℝ)
         else (byteCount t true b : ℝ) / (t.length : ℝ) *
           Real.logb 2 ((byteCount t true b : ℝ) / (t.length : ℝ)))
        = (if isPrintByte b then
             if t.count b = 0 then (0 : ℝ)
             else (t.count b : ℝ) / (t.length : ℝ) *
               Real.logb 2 ((t.count b : ℝ) / (t.length : ℝ))
           else 0) := by
      intro b
      rw [byteCount_true]
      by_cases hb : isPrintByte b = true
      · simp only [hb, if_true]
      · simp [hb]
    rw [Finset.sum_congr rfl fun b _ => hterm b]
    split
    · rename_i h
      rw [h, neg_zero]
    · rfl

/-- C9 counterexample: on the two-byte text `a␀` the source entropy with
the print flag is `1/2` (the NUL byte is dropped, its class contributes no
term), while the claimed collapsed-class entropy is `1`. -/
theorem C9_counterexample :
    entropy [(97 : Fin 256), (0 : Fin 256)] true = 1 / 2 ∧
    entropyCollapsedSpec [(97 : Fin 256), (0 : Fin 256)] = 1 ∧
    entropy [(97 : Fin 256), (0 : Fin 256)] true
      ≠ entropyCollapsedSpec [(97 : Fin 256), (0 : Fin 256)] := by
  have hlog : Real.logb 2 ((1 : ℝ) / 2) = -1 := by
    rw [show (1 : ℝ) / 2 = 2⁻¹ by norm_num, Real.logb_inv,
      Real.logb_self_eq_one (by norm_num)]
  have hbc : ∀ b : Fin 256,
      byteCount [(97 : Fin 256), (0 : Fin 256)] true b
        = List.count b [(97 : Fin 256)] :=
    fun _ => rfl
  have hent : entropy [(97 : Fin 256), (0 : Fin 256)] true = 1 / 2 := by
    simp only [entropy]
    rw [if_neg (by simp)]
    have hterm : ∀ b : Fin 256,
        (if byteCount [(97 : Fin 256), (0 : Fin 256)] true b = 0 then (0 : ℝ)
         else (byteCount [(97 : Fin 256), (0 : Fin 256)] true b : ℝ)
             / (([(97 : Fin 256), (0 : Fin 256)] : List (Fin 256)).length : ℝ) *
           Real.logb 2 ((byteCount [(97 : Fin 256), (0 : Fin 256)] true b : ℝ)
             / (([(97 : Fin 256), (0 : Fin 256)] : List (Fin 256)).length : ℝ)))
        = (if (97 : Fin 256) = b
            then (1 : ℝ) / 2 * Real.logb 2 ((1 : ℝ) / 2) else 0) := by
      intro b
      by_cases hb : (97 : Fin 256) = b
      · subst hb
        have h1 : byteCount [(97 : Fin 256), (0 : Fin 256)] true 97 = 1 := rfl
        norm_num [h1]
      · have hc : byteCount [(97 : Fin 256), (0 : Fin 256)] true b = 0 := by
          rw [hbc b, List.count_singleton]
          simp [hb]
        simp [hc, hb]
    rw [Finset.sum_congr rfl fun b _ => hterm b, Finset.sum_ite_eq]
    norm_num [hlog]
  have hcol : entropyCollapsedSpec [(97 : Fin 256), (0 : Fin 256)] = 1 := by
    simp only [entropyCollapsedSpec]
    have hterm : ∀ b : Fin 256,
        (if isPrintByte b then
           if ([(97 : Fin 256), (0 : Fin 256)] : List (Fin 256)).count b = 0 then (0 : ℝ)
           else (([(97 : Fin 256), (0 : Fin 256)] : List (Fin 256)).count b : ℝ)
               / (([(97 : Fin 256), (0 : Fin 256)] : List (Fin 256)).length : ℝ) *
             Real.logb 2 ((([(97 : Fin 256), (0 : Fin 256)] : List (Fin 256)).count b : ℝ)
               / (([(97 : Fin 256), (0 : Fin 256)] : List (Fin 256)).length : ℝ))
         else 0)
        = (if (97 : Fin 256) = b
            then (1 : ℝ) / 2 * Real.logb 2 ((1 : ℝ) / 2) else 0) := by
      intro b
      by_cases hb : (97 : Fin 256) = b
      · subst hb
        have h1 : ([(97 : Fin 256), (0 : Fin 256)] : List (Fin 256)).count 97 = 1 := rfl
        have hp97 : isPrintByte (97 : Fin 256) = true := by decide
        norm_num [h1, hp97]
      · by_cases hp : isPrintByte b = true
        · have hb0 : b ≠ 0 := by
            intro h
            subst h
            exact absurd hp (by decide)
          have hcnt : ([(97 : Fin 256), (0 : Fin 256)] : List (Fin 256)).count b = 0 := by
            refine List.count_eq_zero.mpr fun hmem => ?_
            simp only [List.mem_cons, List.not_mem_nil, or_false] at hmem
            rcases hmem with h | h
            · exact hb h.symm
            · exact hb0 h
          simp [hp, hcnt, hb]
        · simp [hp, hb]
    rw [Finset.sum_congr rfl fun b _ => hterm b, Finset.sum_ite_eq]
    have hm : (List.filter (fun b : Fin 256 => !isPrintByte b)
        [(97 : Fin 256), (0 : Fin 256)]).length = 1 := by decide
    rw [hm]
    norm_num [hlog]
  refine ⟨hent, hcol, ?_⟩
  rw [hent, hcol]
  norm_num

/-! ## Lemmas for the tokenizer -/

/-- A successful `loop2` scan finds its splitter at or after the starting
index, with positive width, inside the data. -/
theorem loop2_some (uni : Uni) (dq : Bool) (data : Str) :
    ∀ (k : Nat) (prev : Char) (i j wd : Nat),
      loop2 uni dq data k prev i = some (j, wd) →
      i ≤ j ∧ 1 ≤ wd ∧ j < data.length := by
  intro k
  induction k with
  | zero =>
    intro prev i j wd h
    simp [loop2] at h
  | succ n ih =>
    intro prev i j wd h
    rw [loop2] at h
    split at h
    · cases h
    · rename_i r hg
      rcases hsp : isSplitter uni dq prev r (data.drop (i + 1)) with ⟨wid, ok⟩
      simp only [hsp] at h
      cases ok with
      | true =>
        rw [if_pos rfl] at h
        have hinj := Option.some.inj h
        have hj : i = j := congrArg Prod.fst hinj
        have hw : 1 + wid = wd := congrArg Prod.snd hinj
        have hlen : i < data.length := by
          by_contra hcon
          rw [List.get?_eq_none.mpr (by omega)] at hg
          cases hg
        omega
      | false =>
        rw [if_neg (by simp)] at h
        have := ih r (i + 1 + wid) j wd h
        exact ⟨by omega, this.2.1, this.2.2⟩

/-- Span accounting of a token-producing `ScanWords` call: the recorded
span starts `start` characters past the previous stop (the leading
splitter gap) and ends exactly at the previous stop plus the consumed
advance, which is positive. -/
theorem scanWords_spec (uni : Uni) (w : Words) (data : Str) {adv : Nat} {tok : Str}
    {w' : Words} (h : scanWords uni w data true = (adv, some tok, w')) :
    ∃ start, start ≤ adv ∧ 1 ≤ adv ∧ 0 < data.length ∧
      w'.pos = w.stop + start ∧ w'.stop = w.stop + adv ∧
      w'.doubleQuoted = w.doubleQuoted := by
  unfold scanWords at h
  rcases hl1 : loop1 uni w.doubleQuoted data data.length (Char.ofNat 0) 0 with ⟨start, prev⟩
  simp only [hl1] at h
  cases hl2 : loop2 uni w.doubleQuoted data data.length prev start with
  | some iw =>
    rcases iw with ⟨i, width⟩
    simp only [hl2] at h
    obtain ⟨his, hw1, hlen⟩ :=
      loop2_some uni w.doubleQuoted data data.length prev start i width hl2
    simp only [Prod.mk.injEq] at h
    obtain ⟨h1, -, h3⟩ := h
    subst h3
    subst h1
    exact ⟨start, by omega, by omega, by omega, by simp, by simp; omega, by simp⟩
  | none =>
    simp only [hl2] at h
    by_cases hlt : start < data.length
    · rw [if_pos (by simp [hlt])] at h
      simp only [Prod.mk.injEq] at h
      obtain ⟨h1, -, h3⟩ := h
      subst h3
      subst h1
      exact ⟨start, by omega, by omega, by omega, by simp, by simp, by simp⟩
    · simp [hlt] at h

/-- The span-based reconstruction invariant of the scanner drive loop:
with the scanner state's stop at `cur` and `data` the unscanned tail of
`text`, gaps plus spans reproduce the tail. -/
theorem reconSpans_scanTokens (uni : Uni) :
    ∀ (fuel : Nat) (w : Words) (data text : Str) (cur : Nat),
      w.stop = cur → text.drop cur = data → data.length < fuel →
      reconSpans text cur (scanTokens uni fuel w data) = data := by
  intro fuel
  induction fuel with
  | zero =>
    intro w data text cur _ _ h3
    omega
  | succ n ih =>
    intro w data text cur hstop hdrop hfuel
    rcases hs : scanWords uni w data true with ⟨adv, tok?, w'⟩
    cases tok? with
    | none =>
      simp only [scanTokens, hs]
      exact hdrop
    | some tok =>
      obtain ⟨start, hsa, hadv, hdl, hpos, hstop', _⟩ := scanWords_spec uni w data hs
      simp only [scanTokens, hs]
      rw [reconSpans]
      have hdrop2 : text.drop w'.stop = data.drop adv := by
        rw [hstop', hstop, ← hdrop, List.drop_drop]
      have hfuel2 : (data.drop adv).length < n := by
        rw [List.length_drop]
        omega
      rw [ih w' (data.drop adv) text w'.stop rfl hdrop2 hfuel2]
      rw [hpos, hstop', hstop]
      unfold seg
      rw [← hdrop]
      have hseg1 : cur + start - cur = start := by omega
      have hseg2 : text.drop (cur + start) = (text.drop cur).drop start := by
        rw [List.drop_drop]
      have hseg3 : (text.drop cur).drop adv = ((text.drop cur).drop start).drop (adv - start) := by
        simp only [List.drop_drop]
        congr 1
        omega
      rw [hseg1, hseg2, hseg3]
      have hseg4 : cur + adv - (cur + start) = adv - start := by omega
      rw [hseg4, List.append_assoc, List.take_append_drop, List.take_append_drop]
/-- C7 counterexample: on `"ab cd"` the scanner records spans `[0,3)` and
`[3,5)` — each span swallows the splitter that ended its token — so
concatenating the tokens with the inter-span gaps (which are empty here)
yields `"abcd"`, dropping the space: the round trip fails for tokens. -/
theorem C7_counterexample :
    runScanner asciiUni false "ab cd".data = [("ab".data, 0, 3), ("cd".data, 3, 5)] ∧
    reconTokens "ab cd".data 0 (runScanner asciiUni false "ab cd".data) = "abcd".data ∧
    reconTokens "ab cd".data 0 (runScanner asciiUni false "ab cd".data) ≠ "ab cd".data := by
  refine ⟨by decide, by decide, by decide⟩

/-- C7 (amended): the round trip holds for the recorded spans: for every
Unicode classifier, either quoting mode and every text, concatenating the
inter-span gaps with the span contents `text[pos:stop)` (token plus its
terminating splitter run) and the trailing remainder reconstructs the text
exactly — no character is dropped or duplicated. -/
theorem C7_amended_span_roundtrip (uni : Uni) (dq : Bool) (text : Str) :
    reconSpans text 0 (runScanner uni dq text) = text := by
  unfold runScanner
  exact reconSpans_scanTokens uni (text.length + 1) ⟨0, 0, dq⟩ text text 0 rfl rfl
    (by omega)
